import Mathlib

/-!
Verification development for the commit-ai repository.

The Python sources are shallowly embedded over `List Char`:
Python `str` values become `List Char`, the `re` patterns used by the
response parser are expanded into their exact backtracking semantics on
character lists, and the single floating-point computation in the code
(`max_length * 0.7` in `validate_title_length`) is modelled exactly as an
IEEE-754 binary64 multiplication of the double nearest to 0.7 by the
integer `max_length`, with round-to-nearest-even, represented as a scaled
integer.  Whitespace is the ASCII whitespace set recognised by Python's
`str.split`/`str.strip`.
-/

/-- Characters of a string literal. -/
def str (s : String) : List Char := s.data

/-- Python whitespace (ASCII part): the set used by `str.split`/`str.strip`. -/
def isSpacePy (c : Char) : Bool :=
  c = ' ' || c = '\t' || c = '\n' || c = '\r' || c = '\x0b' || c = '\x0c'

/-- Python `str.lstrip()`. -/
def lstrip (l : List Char) : List Char := l.dropWhile isSpacePy

/-- Python `str.rstrip()`. -/
def rstrip (l : List Char) : List Char := (l.reverse.dropWhile isSpacePy).reverse

/-- Python `str.strip()`. -/
def stripPy (l : List Char) : List Char := rstrip (lstrip l)

/-- Python `str.split()` with no separator: whitespace runs split the string,
empty fields are dropped. -/
def pyWords (l : List Char) : List (List Char) :=
  (l.splitOnP isSpacePy).filter (· ≠ [])

/-- Python `' '.join(ws)`. -/
def joinSp (ws : List (List Char)) : List Char := List.intercalate [' '] ws

/-- Python `text.replace('. ', '.\n')`: left-to-right, non-overlapping. -/
def replDotSp : List Char → List Char
  | [] => []
  | [c] => [c]
  | c1 :: c2 :: rest =>
    if c1 = '.' && c2 = ' ' then '.' :: '\n' :: replDotSp rest
    else c1 :: replDotSp (c2 :: rest)

/-- Python `text.replace(':\n', ': ')`: left-to-right, non-overlapping. -/
def replColonNl : List Char → List Char
  | [] => []
  | [c] => [c]
  | c1 :: c2 :: rest =>
    if c1 = ':' && c2 = '\n' then ':' :: ' ' :: replColonNl rest
    else c1 :: replColonNl (c2 :: rest)

/-- Embedding of `ResponseParser._clean_text` (response_parser.py lines 74-88). -/
def clean_text (t : List Char) : List Char :=
  stripPy (replColonNl (replDotSp (joinSp (pyWords t))))

/-- Index of the first occurrence of `pat` as a contiguous substring. -/
def findSub (pat : List Char) : List Char → Option Nat
  | [] => if pat.isPrefixOf ([] : List Char) then some 0 else none
  | c :: rest =>
    if pat.isPrefixOf (c :: rest) then some 0
    else (findSub pat rest).map (· + 1)

/-- Semantics of `re.search(r'<open>(.*?)</close>', s, re.DOTALL)`: the group of the
leftmost match, i.e. the text between the first opening tag and the first
closing tag after it. -/
def extractTagged (openTag closeTag s : List Char) : Option (List Char) :=
  match findSub openTag s with
  | none => none
  | some i =>
    let after := s.drop (i + openTag.length)
    match findSub closeTag after with
    | some j => some (after.take j)
    | none => none

def openR : List Char := str "<reasoning>"

def closeR : List Char := str "</reasoning>"

/-- Semantics of `re.sub(r'<reasoning>.*?</reasoning>', '', s, flags=re.DOTALL)`:
removes every non-overlapping leftmost-shortest tagged span.  The fuel is
the length of the scanned list; every recursive call consumes at least one
character, so fuel equal to the initial length is always sufficient. -/
def removeReasoningSpans : Nat → List Char → List Char
  | 0, s => s
  | _ + 1, [] => []
  | fuel + 1, c :: rest =>
    if openR.isPrefixOf (c :: rest) then
      match findSub closeR ((c :: rest).drop openR.length) with
      | some j =>
        removeReasoningSpans fuel ((c :: rest).drop (openR.length + j + closeR.length))
      | none => c :: removeReasoningSpans fuel rest
    else c :: removeReasoningSpans fuel rest

def tagMarkers : List (List Char) :=
  [str "<commit_title>", str "</commit_title>", str "<commit_body>", str "</commit_body>"]

/-- Semantics of `re.sub(r'<commit_title>|</commit_title>|<commit_body>|</commit_body>', '', s)`.
The four alternatives pairwise disagree on a common position, so a single
left-to-right scan trying each literal is the exact semantics. -/
def removeMarkers : Nat → List Char → List Char
  | 0, s => s
  | _ + 1, [] => []
  | fuel + 1, c :: rest =>
    match tagMarkers.find? (fun p => p.isPrefixOf (c :: rest)) with
    | some p => removeMarkers fuel ((c :: rest).drop p.length)
    | none => c :: removeMarkers fuel rest

def fallbackTitle : List Char := str "chore: update files"

/-- Embedding of `ResponseParser._parse_plain_response` (response_parser.py lines 47-72). -/
def parse_plain_response (response : List Char) : List Char × List Char :=
  let r1 := removeReasoningSpans response.length response
  let r2 := removeMarkers r1.length r1
  let lines := (((stripPy r2).splitOn '\n').map stripPy).filter (· ≠ [])
  match lines with
  | [] => (fallbackTitle, [])
  | t :: rest => (t, List.intercalate ['\n'] rest)

structure ParsedMessage where
  reasoning : List Char
  title : List Char
  body : List Char
  full_message : List Char
  deriving DecidableEq, Repr

/-- Embedding of `ResponseParser.parse_structured_response` (response_parser.py lines 10-45). -/
def parse_structured_response (response : List Char) : ParsedMessage :=
  let reasoning := ((extractTagged openR closeR response).map stripPy).getD []
  let title0 :=
    ((extractTagged (str "<commit_title>") (str "</commit_title>") response).map stripPy).getD []
  let body0 :=
    ((extractTagged (str "<commit_body>") (str "</commit_body>") response).map stripPy).getD []
  let tb := if title0 = [] then parse_plain_response response else (title0, body0)
  let title := clean_text tb.1
  let body := clean_text tb.2
  ⟨reasoning, title, body, if body = [] then title else title ++ str "\n\n" ++ body⟩

/-- The `: .+` tail of the conventional-commit pattern: a colon, exactly one
space, then at least one character, where `.` excludes newlines. -/
def colonRest : List Char → Bool
  | ':' :: ' ' :: c :: _ => c ≠ '\n'
  | _ => false

/-- Backtracking semantics of `\(.+?\)` followed by `: .+`, applied to the
characters after the opening parenthesis.  `consumed` records whether the
`.+?` group has already matched at least one character. -/
def scopeTail : Bool → List Char → Bool
  | _, [] => false
  | consumed, c :: u =>
    (c = ')' && consumed && colonRest u) || (c ≠ '\n' && scopeTail true u)

/-- The scope alternative `\(.+?\): .+`: an opening parenthesis followed by
the scope tail. -/
def scopePart : List Char → Bool
  | '(' :: t => scopeTail false t
  | _ => false

/-- Matching of `(\(.+?\))?: .+` against the text after the commit type. -/
def restMatch (rest : List Char) : Bool :=
  colonRest rest || scopePart rest

/-- Embedding of `ResponseParser.validate_conventional_commit` (response_parser.py lines
90-103): `re.match` of `^(t1|t2|...)(\(.+?\))?: .+`.  When `valid_types` is
empty, `'|'.join` produces an empty alternation `()`, which matches the
empty string. -/
def validate_conventional_commit (title : List Char) (valid_types : List (List Char)) : Bool :=
  let alts := if valid_types = [] then [([] : List Char)] else valid_types
  alts.any fun t => t.isPrefixOf title && restMatch (title.drop t.length)

/-- Semantics of `re.sub(r'^[:\(\)]?\s*', '', rest)`: one optional leading colon or
parenthesis, then any leading whitespace, removed. -/
def subLead (l : List Char) : List Char :=
  (match l with
   | c :: rest => if c = ':' || c = '(' || c = ')' then rest else l
   | [] => []).dropWhile isSpacePy

/-- Semantics of `(.+)` at the end of a pattern: the maximal nonempty run of
non-newline characters from the current position. -/
def dotPlus (v : List Char) : Option (List Char) :=
  match v with
  | [] => none
  | c :: _ => if c = '\n' then none else some (v.takeWhile (· ≠ '\n'))

/-- Semantics of `\s*(.+)` with backtracking: prefer consuming whitespace, fall back to
starting the `.+` group earlier. -/
def wsThenDot : List Char → Option (List Char)
  | [] => none
  | c :: rest =>
    if isSpacePy c then
      match wsThenDot rest with
      | some d => some d
      | none => dotPlus (c :: rest)
    else dotPlus (c :: rest)

/-- Semantics of `:?\s*(.+)` with backtracking: prefer consuming a colon. -/
def afterColonOpt (v : List Char) : Option (List Char) :=
  match v with
  | ':' :: rest =>
    (match wsThenDot rest with
     | some d => some d
     | none => wsThenDot v)
  | _ => wsThenDot v

/-- Semantics of `\s*:?\s*(.+)` with backtracking, longest leading whitespace first. -/
def tailMatch : List Char → Option (List Char)
  | [] => none
  | c :: rest =>
    if isSpacePy c then
      match tailMatch rest with
      | some d => some d
      | none => afterColonOpt (c :: rest)
    else afterColonOpt (c :: rest)

/-- Semantics of `re.match(r'\(([^)]+)\)\s*:?\s*(.+)', rest)`: the scope group (the
nonempty run before the first closing parenthesis) and the description
group, or `none` when the pattern does not match. -/
def scopeMatch (rest : List Char) : Option (List Char × List Char) :=
  match rest with
  | '(' :: t =>
    let scope := t.takeWhile (· ≠ ')')
    if scope = [] then none
    else if scope.length = t.length then none
    else
      match tailMatch (t.drop (scope.length + 1)) with
      | some desc => some (scope, desc)
      | none => none
  | _ => none

/-- The keyword-to-type inference table of `fix_commit_format`
(response_parser.py lines 142-159). -/
def inferKeyword (title : List Char) : List Char :=
  let tl := title.map Char.toLower
  if [str "add", str "new", str "implement", str "create"].any
      (fun w => (findSub w tl).isSome) then str "feat: " ++ title
  else if [str "fix", str "bug", str "issue", str "resolve"].any
      (fun w => (findSub w tl).isSome) then str "fix: " ++ title
  else if [str "update", str "modify", str "change"].any
      (fun w => (findSub w tl).isSome) then str "chore: " ++ title
  else if [str "refactor", str "restructure", str "reorganize"].any
      (fun w => (findSub w tl).isSome) then str "refactor: " ++ title
  else if [str "test", str "spec"].any
      (fun w => (findSub w tl).isSome) then str "test: " ++ title
  else if [str "doc", str "readme"].any
      (fun w => (findSub w tl).isSome) then str "docs: " ++ title
  else str "chore: " ++ title

/-- Embedding of `ResponseParser.fix_commit_format` (response_parser.py lines 105-159). -/
def fix_commit_format (title0 : List Char) (valid_types : List (List Char)) : List Char :=
  let title := stripPy title0
  if validate_conventional_commit title valid_types then title
  else
    match valid_types.find? (fun t => t.isPrefixOf (title.map Char.toLower)) with
    | some t =>
      let rest := subLead (stripPy (title.drop t.length))
      (match scopeMatch rest with
       | some sd => t ++ '(' :: sd.1 ++ str "): " ++ sd.2
       | none =>
         if rest.head? ≠ some ':' then t ++ str ": " ++ rest
         else t ++ rest)
    | none => inferKeyword title

/-- Index of the first space character, `none` if there is no space. -/
def findIdxSp : List Char → Option Nat
  | [] => none
  | c :: rest => if c = ' ' then some 0 else (findIdxSp rest).map (· + 1)

/-- Python `truncated.rfind(' ')`: highest index of a space, `-1` if none. -/
def rfind_space (l : List Char) : Int :=
  match findIdxSp l.reverse with
  | some i => (l.length : Int) - 1 - i
  | none => -1

/-- Number of halvings needed to bring `x` below `2^53` (fuel-bounded;
128 units of fuel cover every value arising here). -/
def shiftAmount : Nat → Nat → Nat
  | 0, _ => 0
  | fuel + 1, x => if x < 2 ^ 53 then 0 else shiftAmount fuel (x / 2) + 1

/-- Round the integer `P` to 53 significant bits (round to nearest, ties to
even), the significand rounding performed by an IEEE binary64 operation. -/
def roundSig (s P : Nat) : Nat :=
  if s = 0 then P
  else
    let q := P / 2 ^ s
    let r := P % 2 ^ s
    let q' := if 2 * r > 2 ^ s || (2 * r = 2 ^ s && q % 2 = 1) then q + 1 else q
    q' * 2 ^ s

/-- The product `max_length * 0.7` computed in IEEE binary64, scaled by `2^52`:
the double nearest 0.7 is `3152519739159347 / 2^52`, so the exact product
is `3152519739159347 * m / 2^52`, and the multiplication rounds the
numerator to 53 significant bits. -/
def fl07scaled (m : Nat) : Nat :=
  let P := 3152519739159347 * m
  roundSig (shiftAmount 128 P) P

/-- Python `last_space > max_length * 0.7`: an exact comparison between the
integer `last_space` and the binary64 product. -/
def backoffTest (last_space : Int) (m : Nat) : Bool :=
  last_space * 2 ^ 52 > (fl07scaled m : Int)

/-- Embedding of `ResponseParser.validate_title_length` (response_parser.py lines
161-182). -/
def validate_title_length (title : List Char) (max_length : Nat) : Bool × List Char :=
  if title.length ≤ max_length then (true, title)
  else
    let truncated := title.take max_length
    let last_space := rfind_space truncated
    let truncated' :=
      if backoffTest last_space max_length then truncated.take last_space.toNat
      else truncated
    (false, stripPy truncated')

/-- Python `pat in s` substring containment. -/
def containsSub (pat l : List Char) : Bool := (findSub pat l).isSome

/-- Embedding of `ContextAnalyzer.detect_change_type` (context_analyzer.py lines 9-52). -/
def detect_change_type (diff : List Char) (files : List (List Char)) : List Char :=
  let diff_lower := diff.map Char.toLower
  if [str "fix", str "bug", str "issue", str "error", str "crash", str "patch"].any
      (fun w => containsSub w diff_lower) then str "bugfix"
  else if ([str "add", str "new", str "implement", str "feature", str "introduce"].any
        (fun w => containsSub w diff_lower)) &&
      !([str "test", str "spec", str "jest", str "pytest"].any
        (fun w => containsSub w diff_lower)) then str "feature"
  else if files.any (fun f =>
      (str ".md").isSuffixOf f || (str ".rst").isSuffixOf f || (str ".txt").isSuffixOf f ||
        containsSub (str "doc") (f.map Char.toLower)) then str "documentation"
  else if files.any (fun f =>
      containsSub (str "test") (f.map Char.toLower) ||
        containsSub (str "spec") (f.map Char.toLower)) then str "test"
  else if [str "refactor", str "restructure", str "reorganize", str "cleanup", str "simplify"].any
      (fun w => containsSub w diff_lower) then str "refactor"
  else if [str "performance", str "optimize", str "faster", str "efficient"].any
      (fun w => containsSub w diff_lower) then str "performance"
  else if [str "format", str "style", str "lint", str "prettier"].any
      (fun w => containsSub w diff_lower) then str "style"
  else str "default"

def excludedSegment (p : List Char) : Bool :=
  p = str "." || p = str ".." || p = str "src" || p = str "lib" || p = str "app"

/-- The first non-excluded directory segment of a path, among all segments
before the filename (`parts[:-1]`); `none` when the path has no `/`. -/
def firstDir (f : List Char) : Option (List Char) :=
  (f.splitOn '/').dropLast.find? (fun p => !excludedSegment p)

/-- Python `scope.replace('_', '-').replace(' ', '-')`. -/
def normalizeScope (scope : List Char) : List Char :=
  scope.map (fun c => if c = '_' || c = ' ' then '-' else c)

def scopeTable : List (List Char × List (List Char)) :=
  [(str "auth", [str "auth", str "login", str "session", str "token"]),
   (str "api", [str "api", str "endpoint", str "route"]),
   (str "ui", [str "component", str "view", str "page", str "ui", str "frontend"]),
   (str "db", [str "database", str "model", str "schema", str "migration"]),
   (str "test", [str "test", str "spec", str "__tests__"]),
   (str "docs", [str "doc", str "readme", str "guide"]),
   (str "config", [str "config", str "settings", str "env"])]

/-- The keyword fallback of `analyze_scope`: the joined lowercased paths are
scanned against the table, first scope with any keyword hit wins. -/
def scopeFromKeywords (files : List (List Char)) : List Char :=
  let files_str := (List.intercalate [' '] files).map Char.toLower
  match scopeTable.find? (fun e => e.2.any (fun k => containsSub k files_str)) with
  | some e => e.1
  | none => []

/-- One iteration of the directory-collection loop of `analyze_scope`:
insert the file's first non-excluded directory into the set. -/
def dirStep (acc : List (List Char)) (f : List Char) : List (List Char) :=
  match firstDir f with
  | some d => if d ∈ acc then acc else acc ++ [d]
  | none => acc

/-- Embedding of `ContextAnalyzer.analyze_scope` (context_analyzer.py lines 67-114).
The Python `set` is modelled as a duplicate-free list built in insertion
order; only its cardinality and sole member are consumed. -/
def analyze_scope (files : List (List Char)) : List Char :=
  if files = [] then []
  else
    match files.foldl dirStep [] with
    | [d] => normalizeScope d
    | _ => scopeFromKeywords files

/-- The relevant configuration slice: `commit_format.types`,
`commit_format.max_title_length` and the top-level `fallback_message`,
each already resolved against its `config.get` default. -/
structure Config where
  types : List (List Char)
  max_title_length : Nat
  fallback_message : List Char

/-- The default configuration values (config.py `DEFAULT_CONFIG`). -/
def defaultConfig : Config :=
  ⟨[str "feat", str "fix", str "docs", str "style", str "refactor", str "test",
    str "chore", str "perf"], 72, str "chore: update files"⟩

/-- Embedding of `OllamaProvider.generate_commit_message` (ollama.py lines 69-120).
The external `_call_ollama` subprocess is represented by its outcome: either
the raw response text or the text of the raised exception; everything after
the call is the pure post-processing of the source, and the `except` clause
becomes the `Except.error` branch. -/
def generate_commit_message (call : Except (List Char) (List Char)) (cfg : Config) :
    ParsedMessage :=
  match call with
  | Except.error e => ⟨str "Error: " ++ e, cfg.fallback_message, [], cfg.fallback_message⟩
  | Except.ok response =>
    let result := parse_structured_response response
    let title1 :=
      if cfg.types ≠ [] && !validate_conventional_commit result.title cfg.types then
        fix_commit_format result.title cfg.types
      else result.title
    let lv := validate_title_length title1 cfg.max_title_length
    let title2 := if lv.1 then title1 else lv.2
    ⟨result.reasoning, title2, result.body,
      if result.body = [] then title2 else title2 ++ str "\n\n" ++ result.body⟩

/-- The scope-splicing step of `MessageGenerator.generate`
(message_generator.py lines 84-92). -/
def addScope (scope : List Char) (m : ParsedMessage) : ParsedMessage :=
  if scope ≠ [] && !m.title.contains '(' then
    if m.title.contains ':' then
      let pre := m.title.takeWhile (· ≠ ':')
      let post := m.title.drop (pre.length + 1)
      let t := pre ++ '(' :: (scope ++ str "):" ++ post)
      ⟨m.reasoning, t, m.body, if m.body = [] then t else t ++ str "\n\n" ++ m.body⟩
    else m
  else m

/-- The `ParsedMessage` invariant: `full_message` is the title alone for an
empty body, and title, blank line, body otherwise. -/
def FullMessageInv (m : ParsedMessage) : Prop :=
  m.full_message = if m.body = [] then m.title else m.title ++ str "\n\n" ++ m.body

/-- The declarative reading of `(\(.+?\))?: .+`: either directly a colon,
one space and a further non-newline character, or a nonempty newline-free
parenthesized scope followed by a colon, one space and a further
non-newline character. -/
def RestSpec (rest : List Char) : Prop :=
  (∃ c cs, rest = ':' :: ' ' :: c :: cs ∧ c ≠ '\n') ∨
    (∃ s c cs, rest = '(' :: (s ++ ')' :: ':' :: ' ' :: c :: cs) ∧ s ≠ [] ∧
      (∀ x ∈ s, x ≠ '\n') ∧ c ≠ '\n')

/-- The claim's reading of `analyze_scope`: collect per file the first
directory segment that is not excluded, deduplicate; exactly one distinct
directory name yields that name normalized, otherwise the keyword table
decides, and the empty input yields the empty string. -/
def spec_analyze_scope (files : List (List Char)) : List Char :=
  if files = [] then []
  else
    match (files.filterMap firstDir).dedup with
    | [d] => normalizeScope d
    | _ => scopeFromKeywords files

/-- Whether the list contains a colon immediately followed by a newline. -/
def hasColonNl : List Char → Bool
  | [] => false
  | [_] => false
  | a :: b :: rest => (a = ':' && b = '\n') || hasColonNl (b :: rest)

/-- Every newline in the list is immediately preceded by a period
(adjacent-pair part). -/
def pairsOk : List Char → Bool
  | [] => true
  | [_] => true
  | a :: b :: rest => (b ≠ '\n' || a = '.') && pairsOk (b :: rest)

/-- Every newline in the list is immediately preceded by a period. -/
def nlOk (l : List Char) : Bool :=
  (l.head? ≠ some '\n') && pairsOk l

/-- The counterexample `max_length`: `2^60`. -/
def cexM : Nat := 2 ^ 60

/-- The counterexample space boundary: one more than
`3152519739159347 * 256`, which is exactly the binary64 value of
`(2^60) * 0.7` scaled by `2^52`; the boundary is below 70% of `cexM` but
above the float threshold. -/
def cexN : Nat := 3152519739159347 * 256 + 1

/-- A title of length `cexM + 1`: `cexN` letters, one space, then letters. -/
def cexTitle : List Char :=
  List.replicate cexN 'x' ++ ' ' :: List.replicate (cexM - cexN) 'x'

theorem mem_dropWhile_of_neg {p : Char → Bool} {c : Char} :
    ∀ {l : List Char}, c ∈ l → p c = false → c ∈ l.dropWhile p := by
  intro l
  induction l with
  | nil => intro h; cases h
  | cons x xs ih =>
    intro hc hp
    rw [List.dropWhile_cons]
    by_cases hx : p x = true
    · rw [if_pos hx]
      rcases List.mem_cons.mp hc with h | h
      · subst h; rw [hp] at hx; cases hx
      · exact ih h hp
    · rw [if_neg hx]; exact hc

theorem dropWhile_head_false {p : Char → Bool} :
    ∀ {l : List Char} {c : Char} {rest : List Char},
      l.dropWhile p = c :: rest → p c = false := by
  intro l
  induction l with
  | nil => intro c rest h; cases h
  | cons x xs ih =>
    intro c rest h
    rw [List.dropWhile_cons] at h
    by_cases hx : p x = true
    · rw [if_pos hx] at h
      exact ih h
    · rw [if_neg hx] at h
      cases h
      exact Bool.eq_false_iff.mpr hx

theorem rstrip_isPre (l : List Char) : rstrip l <+: l := by
  apply List.reverse_suffix.mp
  rw [rstrip, List.reverse_reverse]
  exact List.dropWhile_suffix isSpacePy

theorem mem_strip_of_nonspace {c : Char} {l : List Char}
    (hc : c ∈ l) (hs : isSpacePy c = false) : c ∈ stripPy l := by
  have h1 : c ∈ lstrip l := mem_dropWhile_of_neg hc hs
  have h2 : c ∈ (lstrip l).reverse := List.mem_reverse.mpr h1
  have h3 : c ∈ (lstrip l).reverse.dropWhile isSpacePy := mem_dropWhile_of_neg h2 hs
  exact List.mem_reverse.mpr h3

theorem stripPy_ne_nil {l : List Char} (h : ∃ c ∈ l, isSpacePy c = false) :
    stripPy l ≠ [] := by
  obtain ⟨c, hc, hs⟩ := h
  intro hnil
  have := mem_strip_of_nonspace hc hs
  rw [hnil] at this
  cases this

theorem exists_nonspace_of_strip_ne_nil {l : List Char} (h : stripPy l ≠ []) :
    ∃ c ∈ stripPy l, isSpacePy c = false := by
  have hl : lstrip l ≠ [] := by
    intro hnil
    apply h
    rw [stripPy, hnil, rstrip]
    rfl
  obtain ⟨c, rest, hcr⟩ := List.exists_cons_of_ne_nil hl
  have hc : isSpacePy c = false := dropWhile_head_false hcr
  obtain ⟨d, t, hdt⟩ := List.exists_cons_of_ne_nil h
  obtain ⟨u, hu⟩ := rstrip_isPre (lstrip l)
  rw [show rstrip (lstrip l) = stripPy l from rfl, hdt] at hu
  rw [hcr] at hu
  have hdc : d = c := by
    have := hu
    simp only [List.cons_append] at this
    exact (List.cons.injEq _ _ _ _).mp this |>.1
  refine ⟨c, ?_, hc⟩
  rw [hdt, hdc]
  exact List.mem_cons_self c t

theorem stripPy_length_le (l : List Char) : (stripPy l).length ≤ l.length := by
  have h1 : (stripPy l).length ≤ (lstrip l).length :=
    (rstrip_isPre (lstrip l)).length_le
  have h2 : (lstrip l).length ≤ l.length := (List.dropWhile_suffix isSpacePy).length_le
  omega

theorem stripPy_eq_self {l : List Char} (h : ∀ c ∈ l, isSpacePy c = false) :
    stripPy l = l := by
  have hd : ∀ (m : List Char), (∀ c ∈ m, isSpacePy c = false) → m.dropWhile isSpacePy = m := by
    intro m hm
    cases m with
    | nil => rfl
    | cons x xs =>
      rw [List.dropWhile_cons, if_neg]
      rw [hm x (List.mem_cons_self x xs)]
      simp
  rw [stripPy, lstrip, hd l h, rstrip, hd l.reverse (fun c hc => h c (List.mem_reverse.mp hc)),
    List.reverse_reverse]

theorem fullInv_parse (response : List Char) :
    FullMessageInv (parse_structured_response response) := by
  unfold FullMessageInv parse_structured_response
  rfl

theorem fullInv_generate (call : Except (List Char) (List Char)) (cfg : Config) :
    FullMessageInv (generate_commit_message call cfg) := by
  cases call with
  | error e => simp [generate_commit_message, FullMessageInv]
  | ok response =>
    unfold FullMessageInv generate_commit_message
    rfl

theorem fullInv_addScope (scope : List Char) (m : ParsedMessage)
    (h : FullMessageInv m) : FullMessageInv (addScope scope m) := by
  rw [addScope]
  by_cases h1 : (scope ≠ [] && !m.title.contains '(') = true
  · rw [if_pos h1]
    by_cases h2 : m.title.contains ':' = true
    · rw [if_pos h2]; rfl
    · rw [if_neg h2]; exact h
  · rw [if_neg h1]; exact h

/-- Claim C9: when the underlying provider call raises, the exception is not
propagated: `generate_commit_message` returns a fallback `ParsedMessage`
whose reasoning carries the error text, whose title and full_message equal
the configured `fallback_message` (`'chore: update files'` in the default
configuration), and whose body is empty. -/
theorem claim_C9 :
    (∀ (e : List Char) (cfg : Config),
      generate_commit_message (Except.error e) cfg =
        ⟨str "Error: " ++ e, cfg.fallback_message, [], cfg.fallback_message⟩) ∧
    (∀ e : List Char,
      (generate_commit_message (Except.error e) defaultConfig).title =
          str "chore: update files" ∧
        (generate_commit_message (Except.error e) defaultConfig).full_message =
          str "chore: update files" ∧
        (generate_commit_message (Except.error e) defaultConfig).body = []) :=
  ⟨fun _ _ => rfl, fun _ => ⟨rfl, rfl, rfl⟩⟩

/-- Claim C2: every `ParsedMessage` produced by `parse_structured_response`,
by the provider's `generate_commit_message` (after format and length
repair, and on its error path), and by the orchestrator after splicing a
detected scope into the title, satisfies `full_message == title` for an
empty body and `full_message == title ++ "\n\n" ++ body` otherwise; in
particular parsing the tagged example yields `"feat: x\n\ny"`. -/
theorem claim_C2 :
    (∀ response : List Char, FullMessageInv (parse_structured_response response)) ∧
    (∀ (call : Except (List Char) (List Char)) (cfg : Config),
      FullMessageInv (generate_commit_message call cfg)) ∧
    (∀ (scope : List Char) (call : Except (List Char) (List Char)) (cfg : Config),
      FullMessageInv (addScope scope (generate_commit_message call cfg))) ∧
    (parse_structured_response
        (str "<commit_title>feat: x</commit_title><commit_body>y</commit_body>")).full_message =
      str "feat: x\n\ny" :=
  ⟨fullInv_parse, fullInv_generate,
    fun scope call cfg => fullInv_addScope scope _ (fullInv_generate call cfg),
    by decide⟩

/-- Claim C6 (amended): `fix_commit_format` applied to an output of its own
that is already a valid conventional commit and carries no surrounding
whitespace returns it unchanged; the unrestricted equation
`fix(fix(title)) = fix(title)` fails (see the counterexample). -/
theorem claim_C6_amended (title : List Char) (valid_types : List (List Char))
    (hval : validate_conventional_commit (fix_commit_format title valid_types) valid_types = true)
    (hstrip : stripPy (fix_commit_format title valid_types) = fix_commit_format title valid_types) :
    fix_commit_format (fix_commit_format title valid_types) valid_types =
      fix_commit_format title valid_types := by
  generalize fix_commit_format title valid_types = o at hval hstrip ⊢
  rw [fix_commit_format, hstrip, if_pos hval]

/-- Witness for C6: the already-valid, stripped output for
`("added stuff", ["feat","fix"])` is a fixed point. -/
theorem claim_C6_witness :
    fix_commit_format (fix_commit_format (str "added stuff") [str "feat", str "fix"])
        [str "feat", str "fix"] =
      fix_commit_format (str "added stuff") [str "feat", str "fix"] :=
  claim_C6_amended (str "added stuff") [str "feat", str "fix"] (by decide) (by decide)

/-- Counterexample for C6 as stated: with `valid_types = ["feat"]` the output
`fix("x") = "chore: x"` is not valid for those types, and a second
application prepends another inferred type: `"chore: chore: x"`. -/
theorem claim_C6_cex :
    fix_commit_format (fix_commit_format (str "x") [str "feat"]) [str "feat"] ≠
      fix_commit_format (str "x") [str "feat"] := by decide

theorem isPrefixOf_true_iff {l₁ l₂ : List Char} :
    l₁.isPrefixOf l₂ = true ↔ ∃ u, l₁ ++ u = l₂ :=
  List.isPrefixOf_iff_prefix

theorem colonRest_iff {rest : List Char} :
    colonRest rest = true ↔ ∃ c cs, rest = ':' :: ' ' :: c :: cs ∧ c ≠ '\n' := by
  constructor
  · intro h
    unfold colonRest at h
    split at h
    · next c cs => exact ⟨c, cs, rfl, by simpa using h⟩
    · cases h
  · rintro ⟨c, cs, rfl, hc⟩
    simp [colonRest, hc]

theorem scopeTail_iff : ∀ (t : List Char) (b : Bool),
    scopeTail b t = true ↔
      ∃ s u, t = s ++ ')' :: u ∧ (∀ x ∈ s, x ≠ '\n') ∧ (b = true ∨ s ≠ []) ∧
        colonRest u = true := by
  intro t
  induction t with
  | nil =>
    intro b
    constructor
    · intro h; cases h
    · rintro ⟨s, u, heq, -, -, -⟩
      cases s <;> cases heq
  | cons c u' ih =>
    intro b
    rw [scopeTail]
    simp only [Bool.or_eq_true, Bool.and_eq_true, decide_eq_true_eq]
    constructor
    · rintro (⟨⟨hc, hb⟩, hcr⟩ | ⟨hc, hs⟩)
      · refine ⟨[], u', ?_, ?_, Or.inl hb, hcr⟩
        · rw [hc]; rfl
        · intro x hx; cases hx
      · obtain ⟨s, u, heq, hns, -, hcru⟩ := (ih true).mp hs
        refine ⟨c :: s, u, ?_, ?_, Or.inr (by simp), hcru⟩
        · rw [List.cons_append, heq]
        · intro x hx
          rcases List.mem_cons.mp hx with h | h
          · rw [h]; exact hc
          · exact hns x h
    · rintro ⟨s, u, heq, hns, hb, hcru⟩
      cases s with
      | nil =>
        simp only [List.nil_append, List.cons.injEq] at heq
        obtain ⟨hc, hu⟩ := heq
        refine Or.inl ⟨⟨hc, ?_⟩, by rw [hu]; exact hcru⟩
        rcases hb with h | h
        · exact h
        · cases h rfl
      | cons x s' =>
        simp only [List.cons_append, List.cons.injEq] at heq
        obtain ⟨hc, hu⟩ := heq
        refine Or.inr ⟨?_, ?_⟩
        · rw [hc]; exact hns x (List.mem_cons_self x s')
        · refine (ih true).mpr ⟨s', u, hu, ?_, Or.inl rfl, hcru⟩
          intro y hy
          exact hns y (List.mem_cons_of_mem x hy)

theorem scopePart_iff {rest : List Char} :
    scopePart rest = true ↔
      ∃ s c cs, rest = '(' :: (s ++ ')' :: ':' :: ' ' :: c :: cs) ∧ s ≠ [] ∧
        (∀ x ∈ s, x ≠ '\n') ∧ c ≠ '\n' := by
  constructor
  · intro h
    have h' : ∃ t, rest = '(' :: t ∧ scopeTail false t = true := by
      unfold scopePart at h
      split at h
      · next t => exact ⟨t, rfl, h⟩
      · cases h
    obtain ⟨t, rfl, hsc⟩ := h'
    obtain ⟨s, u, heq, hns, hb, hcru⟩ := (scopeTail_iff t false).mp hsc
    obtain ⟨c, cs, rfl, hc⟩ := colonRest_iff.mp hcru
    refine ⟨s, c, cs, by rw [heq], ?_, hns, hc⟩
    rcases hb with h | h
    · cases h
    · exact h
  · rintro ⟨s, c, cs, rfl, hs, hns, hc⟩
    show scopeTail false (s ++ ')' :: ':' :: ' ' :: c :: cs) = true
    exact (scopeTail_iff _ false).mpr
      ⟨s, ':' :: ' ' :: c :: cs, rfl, hns, Or.inr hs, by simp [colonRest, hc]⟩

theorem restMatch_iff {rest : List Char} : restMatch rest = true ↔ RestSpec rest := by
  rw [restMatch, RestSpec, Bool.or_eq_true, colonRest_iff, scopePart_iff]

/-- Claim C4 (amended): for nonempty `valid_types`,
`validate_conventional_commit` accepts exactly the titles that start with a
type from `valid_types` (case-sensitively), optionally followed by a
nonempty newline-free parenthesized scope, then a colon, exactly one space
and at least one further non-newline character; both concrete examples of
the claim hold.  (With empty `valid_types` the compiled pattern contains an
empty alternation, see the counterexample.) -/
theorem claim_C4_amended :
    (∀ (title : List Char) (vt : List (List Char)), vt ≠ [] →
      (validate_conventional_commit title vt = true ↔
        ∃ t ∈ vt, ∃ rest, title = t ++ rest ∧ RestSpec rest)) ∧
    validate_conventional_commit (str "feat(api): add endpoint") [str "feat", str "fix"] = true ∧
    validate_conventional_commit (str "added stuff") [str "feat", str "fix"] = false := by
  refine ⟨?_, by decide, by decide⟩
  intro title vt hvt
  rw [validate_conventional_commit]
  simp only [if_neg hvt, List.any_eq_true, Bool.and_eq_true]
  constructor
  · rintro ⟨t, ht, hp, hr⟩
    obtain ⟨rest, hrest⟩ := isPrefixOf_true_iff.mp hp
    rw [← hrest] at hr ⊢
    rw [List.drop_left, restMatch_iff] at hr
    exact ⟨t, ht, rest, rfl, hr⟩
  · rintro ⟨t, ht, rest, rfl, hR⟩
    refine ⟨t, ht, isPrefixOf_true_iff.mpr ⟨rest, rfl⟩, ?_⟩
    rw [List.drop_left, restMatch_iff]
    exact hR

/-- Witness for C4: the equivalence applied to the concrete nonempty type
list `["feat"]` and the title `"feat: ok"`. -/
theorem claim_C4_witness :
    validate_conventional_commit (str "feat: ok") [str "feat"] = true ↔
      ∃ t ∈ [str "feat"], ∃ rest, str "feat: ok" = t ++ rest ∧ RestSpec rest :=
  claim_C4_amended.1 (str "feat: ok") [str "feat"] (by decide)

/-- Counterexample for C4 as stated: with empty `valid_types` the compiled
pattern is `^()(\(.+?\))?: .+`, whose empty alternation matches the empty
type, so `": x"` validates although no type from the (empty) list prefixes
it. -/
theorem claim_C4_cex :
    validate_conventional_commit (str ": x") ([] : List (List Char)) = true ∧
    ¬ ∃ t ∈ ([] : List (List Char)), ∃ rest, str ": x" = t ++ rest ∧ RestSpec rest := by
  refine ⟨by decide, ?_⟩
  rintro ⟨t, ht, -⟩
  cases ht

/-- Claim C5 (amended): `fix_commit_format` strips the title first and
returns the stripped title unchanged when that stripped title is already a
valid conventional commit (an already-valid title is returned unchanged
only when it carries no surrounding whitespace, see the counterexample);
otherwise, when the stripped title case-insensitively begins with a
configured type it strips that prefix and a leading colon/parenthesis and
reassembles as `type(scope): description` when a scope pattern is found in
the remainder, as `type: remainder` when no scope is found and the
remainder does not itself begin with a colon, and as the bare
concatenation `type ++ remainder` when the remainder still begins with a
colon (so `fix_commit_format("feat::x", ["feat"]) == "feat:x"`); when no
configured type prefixes the title it applies the ordered keyword
inference table and prepends the inferred type, so
`fix_commit_format("added stuff", ["feat","fix"]) == "feat: added stuff"`. -/
theorem claim_C5_amended :
    (∀ (title : List Char) (vt : List (List Char)),
      validate_conventional_commit (stripPy title) vt = true →
      fix_commit_format title vt = stripPy title) ∧
    (∀ (title : List Char) (vt : List (List Char)),
      validate_conventional_commit (stripPy title) vt = false →
      vt.find? (fun t => t.isPrefixOf ((stripPy title).map Char.toLower)) = none →
      fix_commit_format title vt = inferKeyword (stripPy title)) ∧
    (∀ l : List Char, (findSub (str "add") (l.map Char.toLower)).isSome = true →
      inferKeyword l = str "feat: " ++ l) ∧
    (∀ (title : List Char) (vt : List (List Char)) (t : List Char),
      validate_conventional_commit (stripPy title) vt = false →
      vt.find? (fun t' => t'.isPrefixOf ((stripPy title).map Char.toLower)) = some t →
      (∀ s d,
        scopeMatch (subLead (stripPy ((stripPy title).drop t.length))) = some (s, d) →
        fix_commit_format title vt = t ++ '(' :: s ++ str "): " ++ d) ∧
      (scopeMatch (subLead (stripPy ((stripPy title).drop t.length))) = none →
        (subLead (stripPy ((stripPy title).drop t.length))).head? ≠ some ':' →
        fix_commit_format title vt =
          t ++ str ": " ++ subLead (stripPy ((stripPy title).drop t.length))) ∧
      (scopeMatch (subLead (stripPy ((stripPy title).drop t.length))) = none →
        (subLead (stripPy ((stripPy title).drop t.length))).head? = some ':' →
        fix_commit_format title vt =
          t ++ subLead (stripPy ((stripPy title).drop t.length)))) ∧
    fix_commit_format (str "added stuff") [str "feat", str "fix"] = str "feat: added stuff" ∧
    fix_commit_format (str "feat::x") [str "feat"] = str "feat:x" := by
  refine ⟨?_, ?_, ?_, ?_, by decide, by decide⟩
  · intro title vt h
    simp only [fix_commit_format]
    rw [if_pos h]
  · intro title vt hval hfind
    simp only [fix_commit_format]
    rw [if_neg (by rw [hval]; exact Bool.false_ne_true), hfind]
  · intro l h
    simp [inferKeyword, h]
  · intro title vt t hval hfind
    have hbase : fix_commit_format title vt =
        (match scopeMatch (subLead (stripPy ((stripPy title).drop t.length))) with
         | some sd => t ++ '(' :: sd.1 ++ str "): " ++ sd.2
         | none =>
           if (subLead (stripPy ((stripPy title).drop t.length))).head? ≠ some ':' then
             t ++ str ": " ++ subLead (stripPy ((stripPy title).drop t.length))
           else t ++ subLead (stripPy ((stripPy title).drop t.length))) := by
      simp only [fix_commit_format]
      rw [if_neg (by rw [hval]; exact Bool.false_ne_true), hfind]
    refine ⟨?_, ?_, ?_⟩
    · intro s d hscope
      rw [hbase, hscope]
    · intro hscope hhead
      rw [hbase, hscope]
      rw [if_pos hhead]
    · intro hscope hhead
      rw [hbase, hscope]
      rw [if_neg (not_not_intro hhead)]

/-- Witness for C5: the valid-after-strip branch applied at a concrete
input. -/
theorem claim_C5_witness :
    fix_commit_format (str "feat: done") [str "feat"] = stripPy (str "feat: done") :=
  claim_C5_amended.1 (str "feat: done") [str "feat"] (by decide)

/-- Counterexample for C5 as stated: `"feat: x "` (with a trailing space) is
already a valid conventional commit, because the validation pattern has no
end anchor, yet `fix_commit_format` returns it stripped, not unchanged. -/
theorem claim_C5_cex :
    validate_conventional_commit (str "feat: x ") [str "feat"] = true ∧
    fix_commit_format (str "feat: x ") [str "feat"] ≠ str "feat: x " := by
  constructor
  · decide
  · decide

theorem containsSub_of_infix {pat l : List Char} (h : pat <:+: l) :
    containsSub pat l = true := by
  obtain ⟨a, b, hab⟩ := h
  induction a generalizing l with
  | nil =>
    rw [← hab, containsSub]
    have hp : pat.isPrefixOf (pat ++ b) = true := isPrefixOf_true_iff.mpr ⟨b, rfl⟩
    cases hpb : pat ++ b with
    | nil =>
      have : pat = [] := by
        cases pat with
        | nil => rfl
        | cons x xs => cases hpb
      rw [List.nil_append, hpb, findSub]
      rw [this]
      rfl
    | cons c rest =>
      rw [List.nil_append, hpb, findSub, if_pos (by rw [← hpb]; exact hp)]
      rfl
  | cons x a' ih =>
    rw [← hab, containsSub, List.cons_append, List.cons_append, findSub]
    by_cases hpre : pat.isPrefixOf (x :: (a' ++ pat ++ b)) = true
    · rw [if_pos hpre]; rfl
    · rw [if_neg hpre]
      have := ih rfl
      rw [containsSub] at this
      obtain ⟨v, hv⟩ := Option.isSome_iff_exists.mp this
      rw [hv]
      rfl

/-- Claim C3: `detect_change_type` is a deterministic, case-insensitive
keyword scan in strict priority order with first match winning: any of
{fix, bug, issue, error, crash, patch} in the lowercased diff yields
`bugfix` (in particular, every diff containing the substring "fix" in any
casing yields `bugfix` for every file list); then the feature rule; then
the documentation rule on filenames; then the test, refactor, performance
and style rules; when no rule fires, and in particular for an empty diff
and empty file list, the result is `default`; the function is total, so
it never fails. -/
theorem claim_C3 :
    (∀ (diff : List Char) (files : List (List Char)) (c1 c2 c3 : Char),
      [c1, c2, c3] <:+: diff → c1.toLower = 'f' → c2.toLower = 'i' → c3.toLower = 'x' →
      detect_change_type diff files = str "bugfix") ∧
    (∀ (diff : List Char) (files : List (List Char)),
      [str "fix", str "bug", str "issue", str "error", str "crash", str "patch"].any
          (fun w => containsSub w (diff.map Char.toLower)) = true →
      detect_change_type diff files = str "bugfix") ∧
    detect_change_type [] [] = str "default" ∧
    (∀ (diff : List Char) (files : List (List Char)),
      [str "fix", str "bug", str "issue", str "error", str "crash", str "patch"].any
          (fun w => containsSub w (diff.map Char.toLower)) = false →
      [str "add", str "new", str "implement", str "feature", str "introduce"].any
          (fun w => containsSub w (diff.map Char.toLower)) = true →
      [str "test", str "spec", str "jest", str "pytest"].any
          (fun w => containsSub w (diff.map Char.toLower)) = false →
      detect_change_type diff files = str "feature") ∧
    (∀ (diff : List Char) (files : List (List Char)),
      [str "fix", str "bug", str "issue", str "error", str "crash", str "patch"].any
          (fun w => containsSub w (diff.map Char.toLower)) = false →
      ([str "add", str "new", str "implement", str "feature", str "introduce"].any
          (fun w => containsSub w (diff.map Char.toLower)) &&
        !([str "test", str "spec", str "jest", str "pytest"].any
          (fun w => containsSub w (diff.map Char.toLower)))) = false →
      files.any (fun f =>
        (str ".md").isSuffixOf f || (str ".rst").isSuffixOf f || (str ".txt").isSuffixOf f ||
          containsSub (str "doc") (f.map Char.toLower)) = true →
      detect_change_type diff files = str "documentation") ∧
    (∀ (diff : List Char) (files : List (List Char)),
      [str "fix", str "bug", str "issue", str "error", str "crash", str "patch"].any
          (fun w => containsSub w (diff.map Char.toLower)) = false →
      ([str "add", str "new", str "implement", str "feature", str "introduce"].any
          (fun w => containsSub w (diff.map Char.toLower)) &&
        !([str "test", str "spec", str "jest", str "pytest"].any
          (fun w => containsSub w (diff.map Char.toLower)))) = false →
      files.any (fun f =>
        (str ".md").isSuffixOf f || (str ".rst").isSuffixOf f || (str ".txt").isSuffixOf f ||
          containsSub (str "doc") (f.map Char.toLower)) = false →
      files.any (fun f =>
        containsSub (str "test") (f.map Char.toLower) ||
          containsSub (str "spec") (f.map Char.toLower)) = true →
      detect_change_type diff files = str "test") ∧
    (∀ (diff : List Char) (files : List (List Char)),
      [str "fix", str "bug", str "issue", str "error", str "crash", str "patch"].any
          (fun w => containsSub w (diff.map Char.toLower)) = false →
      ([str "add", str "new", str "implement", str "feature", str "introduce"].any
          (fun w => containsSub w (diff.map Char.toLower)) &&
        !([str "test", str "spec", str "jest", str "pytest"].any
          (fun w => containsSub w (diff.map Char.toLower)))) = false →
      files.any (fun f =>
        (str ".md").isSuffixOf f || (str ".rst").isSuffixOf f || (str ".txt").isSuffixOf f ||
          containsSub (str "doc") (f.map Char.toLower)) = false →
      files.any (fun f =>
        containsSub (str "test") (f.map Char.toLower) ||
          containsSub (str "spec") (f.map Char.toLower)) = false →
      [str "refactor", str "restructure", str "reorganize", str "cleanup", str "simplify"].any
          (fun w => containsSub w (diff.map Char.toLower)) = true →
      detect_change_type diff files = str "refactor") ∧
    (∀ (diff : List Char) (files : List (List Char)),
      [str "fix", str "bug", str "issue", str "error", str "crash", str "patch"].any
          (fun w => containsSub w (diff.map Char.toLower)) = false →
      ([str "add", str "new", str "implement", str "feature", str "introduce"].any
          (fun w => containsSub w (diff.map Char.toLower)) &&
        !([str "test", str "spec", str "jest", str "pytest"].any
          (fun w => containsSub w (diff.map Char.toLower)))) = false →
      files.any (fun f =>
        (str ".md").isSuffixOf f || (str ".rst").isSuffixOf f || (str ".txt").isSuffixOf f ||
          containsSub (str "doc") (f.map Char.toLower)) = false →
      files.any (fun f =>
        containsSub (str "test") (f.map Char.toLower) ||
          containsSub (str "spec") (f.map Char.toLower)) = false →
      [str "refactor", str "restructure", str "reorganize", str "cleanup", str "simplify"].any
          (fun w => containsSub w (diff.map Char.toLower)) = false →
      [str "performance", str "optimize", str "faster", str "efficient"].any
          (fun w => containsSub w (diff.map Char.toLower)) = true →
      detect_change_type diff files = str "performance") ∧
    (∀ (diff : List Char) (files : List (List Char)),
      [str "fix", str "bug", str "issue", str "error", str "crash", str "patch"].any
          (fun w => containsSub w (diff.map Char.toLower)) = false →
      ([str "add", str "new", str "implement", str "feature", str "introduce"].any
          (fun w => containsSub w (diff.map Char.toLower)) &&
        !([str "test", str "spec", str "jest", str "pytest"].any
          (fun w => containsSub w (diff.map Char.toLower)))) = false →
      files.any (fun f =>
        (str ".md").isSuffixOf f || (str ".rst").isSuffixOf f || (str ".txt").isSuffixOf f ||
          containsSub (str "doc") (f.map Char.toLower)) = false →
      files.any (fun f =>
        containsSub (str "test") (f.map Char.toLower) ||
          containsSub (str "spec") (f.map Char.toLower)) = false →
      [str "refactor", str "restructure", str "reorganize", str "cleanup", str "simplify"].any
          (fun w => containsSub w (diff.map Char.toLower)) = false →
      [str "performance", str "optimize", str "faster", str "efficient"].any
          (fun w => containsSub w (diff.map Char.toLower)) = false →
      [str "format", str "style", str "lint", str "prettier"].any
          (fun w => containsSub w (diff.map Char.toLower)) = true →
      detect_change_type diff files = str "style") ∧
    (∀ (diff : List Char) (files : List (List Char)),
      [str "fix", str "bug", str "issue", str "error", str "crash", str "patch"].any
          (fun w => containsSub w (diff.map Char.toLower)) = false →
      ([str "add", str "new", str "implement", str "feature", str "introduce"].any
          (fun w => containsSub w (diff.map Char.toLower)) &&
        !([str "test", str "spec", str "jest", str "pytest"].any
          (fun w => containsSub w (diff.map Char.toLower)))) = false →
      files.any (fun f =>
        (str ".md").isSuffixOf f || (str ".rst").isSuffixOf f || (str ".txt").isSuffixOf f ||
          containsSub (str "doc") (f.map Char.toLower)) = false →
      files.any (fun f =>
        containsSub (str "test") (f.map Char.toLower) ||
          containsSub (str "spec") (f.map Char.toLower)) = false →
      [str "refactor", str "restructure", str "reorganize", str "cleanup", str "simplify"].any
          (fun w => containsSub w (diff.map Char.toLower)) = false →
      [str "performance", str "optimize", str "faster", str "efficient"].any
          (fun w => containsSub w (diff.map Char.toLower)) = false →
      [str "format", str "style", str "lint", str "prettier"].any
          (fun w => containsSub w (diff.map Char.toLower)) = false →
      detect_change_type diff files = str "default") := by
  refine ⟨?_, ?_, by decide, ?_, ?_, ?_, ?_, ?_, ?_, ?_⟩
  · intro diff files c1 c2 c3 hinf h1 h2 h3
    have hmap : [c1.toLower, c2.toLower, c3.toLower] <:+: diff.map Char.toLower := by
      simpa using List.IsInfix.map Char.toLower hinf
    rw [h1, h2, h3] at hmap
    have hfix : containsSub (str "fix") (diff.map Char.toLower) = true :=
      containsSub_of_infix hmap
    simp [detect_change_type, hfix]
  · intro diff files h1
    simp only [detect_change_type]
    rw [h1]
    rfl
  · intro diff files h1 h2 h3
    simp only [detect_change_type]
    rw [h1, h2, h3]
    rfl
  · intro diff files h1 h2 h3
    simp only [detect_change_type]
    rw [h1, h2, h3]
    rfl
  · intro diff files h1 h2 h3 h4
    simp only [detect_change_type]
    rw [h1, h2, h3, h4]
    rfl
  · intro diff files h1 h2 h3 h4 h5
    simp only [detect_change_type]
    rw [h1, h2, h3, h4, h5]
    rfl
  · intro diff files h1 h2 h3 h4 h5 h6
    simp only [detect_change_type]
    rw [h1, h2, h3, h4, h5, h6]
    rfl
  · intro diff files h1 h2 h3 h4 h5 h6 h7
    simp only [detect_change_type]
    rw [h1, h2, h3, h4, h5, h6, h7]
    rfl
  · intro diff files h1 h2 h3 h4 h5 h6 h7
    simp only [detect_change_type]
    rw [h1, h2, h3, h4, h5, h6, h7]
    rfl

/-- Witness for C3: the substring "FIx" inside "preFIx!" triggers the
bugfix rule regardless of casing. -/
theorem claim_C3_witness :
    detect_change_type (str "preFIx!") [] = str "bugfix" :=
  claim_C3.1 (str "preFIx!") [] 'F' 'I' 'x' ⟨str "pre", str "!", by decide⟩
    (by decide) (by decide) (by decide)

theorem dirStep_mem {acc : List (List Char)} {f x : List Char} :
    x ∈ dirStep acc f ↔ x ∈ acc ∨ firstDir f = some x := by
  unfold dirStep
  cases h : firstDir f with
  | none => simp
  | some d =>
    show x ∈ (if d ∈ acc then acc else acc ++ [d]) ↔ x ∈ acc ∨ some d = some x
    by_cases hd : d ∈ acc
    · rw [if_pos hd]
      constructor
      · exact Or.inl
      · rintro (hx | hx)
        · exact hx
        · rw [← Option.some.injEq d x |>.mp hx]
          exact hd
    · rw [if_neg hd]
      simp [List.mem_append, eq_comm]

theorem dirStep_nodup {acc : List (List Char)} {f : List Char} (h : acc.Nodup) :
    (dirStep acc f).Nodup := by
  unfold dirStep
  cases firstDir f with
  | none => exact h
  | some d =>
    show (if d ∈ acc then acc else acc ++ [d]).Nodup
    by_cases hd : d ∈ acc
    · rw [if_pos hd]; exact h
    · rw [if_neg hd]
      simp [List.nodup_append, h, hd]

theorem foldl_dirs_mem : ∀ (files : List (List Char)) (acc : List (List Char)) (x : List Char),
    x ∈ files.foldl dirStep acc ↔ x ∈ acc ∨ ∃ f ∈ files, firstDir f = some x := by
  intro files
  induction files with
  | nil => intro acc x; simp
  | cons f fs ih =>
    intro acc x
    rw [List.foldl_cons, ih (dirStep acc f) x]
    rw [dirStep_mem]
    constructor
    · rintro ((h | h) | ⟨g, hg, hgx⟩)
      · exact Or.inl h
      · exact Or.inr ⟨f, List.mem_cons_self f fs, h⟩
      · exact Or.inr ⟨g, List.mem_cons_of_mem f hg, hgx⟩
    · rintro (h | ⟨g, hg, hgx⟩)
      · exact Or.inl (Or.inl h)
      · rcases List.mem_cons.mp hg with h | h
        · rw [h] at hgx
          exact Or.inl (Or.inr hgx)
        · exact Or.inr ⟨g, h, hgx⟩

theorem foldl_dirs_nodup : ∀ (files : List (List Char)) (acc : List (List Char)),
    acc.Nodup → (files.foldl dirStep acc).Nodup := by
  intro files
  induction files with
  | nil => intro acc h; exact h
  | cons f fs ih => intro acc h; exact ih (dirStep acc f) (dirStep_nodup h)

theorem nodup_singleton_eq {α : Type} [DecidableEq α] {l l' : List α}
    (hn' : l'.Nodup) (hm : ∀ x, x ∈ l ↔ x ∈ l') {d : α} (h : l = [d]) : l' = [d] := by
  subst h
  have hd : d ∈ l' := (hm d).mp (List.mem_cons_self d [])
  cases l' with
  | nil => cases hd
  | cons y t =>
    have hy : y = d := by
      have := (hm y).mpr (List.mem_cons_self y t)
      rcases List.mem_cons.mp this with h | h
      · exact h
      · cases h
    cases t with
    | nil => rw [hy]
    | cons z t' =>
      have hz : z = d := by
        have := (hm z).mpr (List.mem_cons_of_mem y (List.mem_cons_self z t'))
        rcases List.mem_cons.mp this with h | h
        · exact h
        · cases h
      rw [List.nodup_cons] at hn'
      exact absurd (by rw [hy, ← hz]; exact List.mem_cons_self z t') hn'.1

/-- Claim C8: `analyze_scope` returns the empty string on empty input;
otherwise it takes per file the first directory segment (excluding the
filename and the literal segments `.`, `..`, `src`, `lib`, `app`) and, when
exactly one distinct directory name emerges, returns it normalized with `_`
and spaces replaced by `-`; otherwise the joined lowercased paths are
scanned against the fixed ordered keyword table, and the empty string is
returned when neither rule fires.  The concrete examples of the claim
evaluate as stated. -/
theorem claim_C8 :
    (∀ files, analyze_scope files = spec_analyze_scope files) ∧
    analyze_scope [str "src/auth/login.py", str "src/auth/session.py"] = str "auth" ∧
    analyze_scope [str "a.py", str "b.py"] = ([] : List Char) ∧
    analyze_scope [] = ([] : List Char) := by
  refine ⟨?_, by decide, by decide, by decide⟩
  intro files
  rw [analyze_scope, spec_analyze_scope]
  by_cases hf : files = []
  · rw [if_pos hf, if_pos hf]
  · rw [if_neg hf, if_neg hf]
    have hnL : (files.foldl dirStep []).Nodup := foldl_dirs_nodup files [] List.nodup_nil
    have hnD : ((files.filterMap firstDir).dedup).Nodup := List.nodup_dedup _
    have hmem : ∀ x, x ∈ files.foldl dirStep [] ↔ x ∈ (files.filterMap firstDir).dedup := by
      intro x
      rw [foldl_dirs_mem, List.mem_dedup, List.mem_filterMap]
      simp
    cases hDc : (files.filterMap firstDir).dedup with
    | nil =>
      have hLnil : files.foldl dirStep [] = [] := by
        rw [List.eq_nil_iff_forall_not_mem]
        intro x hx
        have := (hmem x).mp hx
        rw [hDc] at this
        cases this
      rw [hLnil]
    | cons d t =>
      cases t with
      | nil =>
        have hLd : files.foldl dirStep [] = [d] :=
          nodup_singleton_eq hnL (fun x => ((hmem x).symm)) hDc
        rw [hLd]
      | cons d2 t2 =>
        have hd12 : d ≠ d2 := by
          rw [hDc, List.nodup_cons] at hnD
          intro h
          exact hnD.1 (by rw [h]; exact List.mem_cons_self d2 t2)
        have h1 : d ∈ files.foldl dirStep [] :=
          (hmem d).mpr (by rw [hDc]; exact List.mem_cons_self d (d2 :: t2))
        have h2 : d2 ∈ files.foldl dirStep [] :=
          (hmem d2).mpr (by rw [hDc]; exact List.mem_cons_of_mem d (List.mem_cons_self d2 t2))
        cases hLc : files.foldl dirStep [] with
        | nil =>
          rw [hLc] at h1
        | cons x t' =>
          cases t' with
          | nil =>
            rw [hLc] at h1 h2
            have hx1 : d = x := by
              rcases List.mem_cons.mp h1 with h | h
              · exact h
              · cases h
            have hx2 : d2 = x := by
              rcases List.mem_cons.mp h2 with h | h
              · exact h
              · cases h
            exact absurd (hx1.trans hx2.symm) hd12
          | cons y t'' => rfl

theorem joinSp_single (w : List Char) : joinSp [w] = w := by
  simp [joinSp, List.intercalate]

theorem joinSp_cons_cons (w v : List Char) (ws : List (List Char)) :
    joinSp (w :: v :: ws) = w ++ ' ' :: joinSp (v :: ws) := by
  simp [joinSp, List.intercalate, List.intersperse_cons_cons]

theorem mem_joinSp_char {c : Char} : ∀ {ws : List (List Char)},
    c ∈ joinSp ws → c = ' ' ∨ ∃ w ∈ ws, c ∈ w := by
  intro ws
  induction ws with
  | nil => intro h; cases h
  | cons w ws ih =>
    intro h
    cases ws with
    | nil =>
      rw [joinSp_single] at h
      exact Or.inr ⟨w, List.mem_cons_self w [], h⟩
    | cons v ws' =>
      rw [joinSp_cons_cons] at h
      rcases List.mem_append.mp h with h | h
      · exact Or.inr ⟨w, List.mem_cons_self w _, h⟩
      · rcases List.mem_cons.mp h with h | h
        · exact Or.inl h
        · rcases ih h with h | ⟨w', hw', hc⟩
          · exact Or.inl h
          · exact Or.inr ⟨w', List.mem_cons_of_mem w hw', hc⟩

theorem mem_splitOnP_nonspace {p : Char → Bool} :
    ∀ {l w : List Char}, w ∈ l.splitOnP p → ∀ c ∈ w, p c = false := by
  intro l
  induction l with
  | nil =>
    intro w hw c hc
    rw [List.splitOnP_nil] at hw
    rcases List.mem_cons.mp hw with h | h
    · rw [h] at hc; cases hc
    · cases h
  | cons x xs ih =>
    intro w hw c hc
    rw [List.splitOnP_cons] at hw
    by_cases hx : p x = true
    · rw [if_pos hx] at hw
      rcases List.mem_cons.mp hw with h | h
      · rw [h] at hc; cases hc
      · exact ih h c hc
    · rw [if_neg hx] at hw
      obtain ⟨h0, t0, ht⟩ := List.exists_cons_of_ne_nil (List.splitOnP_ne_nil p xs)
      rw [ht, List.modifyHead_cons] at hw
      rcases List.mem_cons.mp hw with h | h
      · rw [h] at hc
        rcases List.mem_cons.mp hc with h' | h'
        · rw [h']; exact Bool.eq_false_iff.mpr hx
        · exact ih (by rw [ht]; exact List.mem_cons_self h0 t0) c h'
      · exact ih (by rw [ht]; exact List.mem_cons_of_mem h0 h) c hc

theorem noNl_joinSp_pyWords (t : List Char) : '\n' ∉ joinSp (pyWords t) := by
  intro h
  rcases mem_joinSp_char h with h | ⟨w, hw, hc⟩
  · cases h
  · rw [pyWords] at hw
    have hmem := (List.mem_filter.mp hw).1
    have := mem_splitOnP_nonspace hmem '\n' hc
    rw [show isSpacePy '\n' = true from rfl] at this
    cases this

theorem replDotSp_head : ∀ l : List Char, (replDotSp l).head? = l.head? := by
  intro l
  induction l using replDotSp.induct with
  | case1 => rfl
  | case2 c => rfl
  | case3 c1 c2 rest hcond ih =>
    rw [replDotSp, if_pos hcond]
    rw [Bool.and_eq_true, decide_eq_true_eq] at hcond
    rw [hcond.1]
    rfl
  | case4 c1 c2 rest hcond ih =>
    rw [replDotSp, if_neg hcond]
    rfl

theorem hasColonNl_cons_safe {a : Char} {l : List Char} (h : l.head? ≠ some '\n') :
    hasColonNl (a :: l) = hasColonNl l := by
  cases l with
  | nil => rfl
  | cons b r =>
    have hb : b ≠ '\n' := by
      intro hb
      apply h
      rw [hb]
      rfl
    rw [hasColonNl]
    have : (a = ':' && b = '\n') = false := by
      simp [hb]
    rw [this, Bool.false_or]

theorem pairsOk_cons_safe {a : Char} {l : List Char} (h : l.head? ≠ some '\n') :
    pairsOk (a :: l) = pairsOk l := by
  cases l with
  | nil => rfl
  | cons b r =>
    have hb : b ≠ '\n' := by
      intro hb
      apply h
      rw [hb]
      rfl
    rw [pairsOk]
    have : (b ≠ '\n' || a = '.') = true := by
      simp [hb]
    rw [this, Bool.true_and]

theorem replDotSp_noColonNl : ∀ {l : List Char}, '\n' ∉ l →
    hasColonNl (replDotSp l) = false := by
  intro l
  induction l using replDotSp.induct with
  | case1 => intro h; rfl
  | case2 c => intro h; rfl
  | case3 c1 c2 rest hcond ih =>
    intro h
    have hrest : '\n' ∉ rest := fun hx => h (by right; right; exact hx)
    rw [replDotSp, if_pos hcond]
    have hheadR : (replDotSp rest).head? ≠ some '\n' := by
      rw [replDotSp_head rest]
      cases rest with
      | nil => intro hx; cases hx
      | cons r0 r =>
        intro hx
        apply hrest
        rw [show r0 = '\n' from Option.some.injEq r0 '\n' |>.mp hx]
        exact List.mem_cons_self '\n' r
    rw [hasColonNl]
    have hfirst : (('.' : Char) = ':' && ('\n' : Char) = '\n') = false := by decide
    rw [hfirst, Bool.false_or, hasColonNl_cons_safe hheadR]
    exact ih hrest
  | case4 c1 c2 rest hcond ih =>
    intro h
    have hc2 : c2 ≠ '\n' := by
      intro hx
      apply h
      rw [hx] at *
      right
      exact List.mem_cons_self '\n' rest
    have htail : '\n' ∉ c2 :: rest := fun hx => h (List.mem_cons_of_mem c1 hx)
    rw [replDotSp, if_neg hcond]
    have hheadR : (replDotSp (c2 :: rest)).head? ≠ some '\n' := by
      rw [replDotSp_head (c2 :: rest)]
      intro hx
      exact hc2 (Option.some.injEq c2 '\n' |>.mp hx)
    rw [hasColonNl_cons_safe hheadR]
    exact ih htail

theorem replDotSp_pairsOk : ∀ {l : List Char}, '\n' ∉ l →
    pairsOk (replDotSp l) = true := by
  intro l
  induction l using replDotSp.induct with
  | case1 => intro h; rfl
  | case2 c => intro h; rfl
  | case3 c1 c2 rest hcond ih =>
    intro h
    have hrest : '\n' ∉ rest := fun hx => h (by right; right; exact hx)
    have hheadR : (replDotSp rest).head? ≠ some '\n' := by
      rw [replDotSp_head rest]
      cases rest with
      | nil => intro hx; cases hx
      | cons r0 r =>
        intro hx
        apply hrest
        rw [show r0 = '\n' from Option.some.injEq r0 '\n' |>.mp hx]
        exact List.mem_cons_self '\n' r
    rw [replDotSp, if_pos hcond, pairsOk]
    have hfirst : (('\n' : Char) ≠ '\n' || ('.' : Char) = '.') = true := by decide
    rw [hfirst, Bool.true_and, pairsOk_cons_safe hheadR]
    exact ih hrest
  | case4 c1 c2 rest hcond ih =>
    intro h
    have hc2 : c2 ≠ '\n' := by
      intro hx
      apply h
      right
      rw [← hx]
      exact List.mem_cons_self c2 rest
    have htail : '\n' ∉ c2 :: rest := fun hx => h (List.mem_cons_of_mem c1 hx)
    have hheadR : (replDotSp (c2 :: rest)).head? ≠ some '\n' := by
      rw [replDotSp_head (c2 :: rest)]
      intro hx
      exact hc2 (Option.some.injEq c2 '\n' |>.mp hx)
    rw [replDotSp, if_neg hcond, pairsOk_cons_safe hheadR]
    exact ih htail

theorem replColonNl_eq_self : ∀ {l : List Char}, hasColonNl l = false →
    replColonNl l = l := by
  intro l
  induction l using replColonNl.induct with
  | case1 => intro h; rfl
  | case2 c => intro h; rfl
  | case3 c1 c2 rest hcond ih =>
    intro h
    rw [hasColonNl, hcond, Bool.true_or] at h
    cases h
  | case4 c1 c2 rest hcond ih =>
    intro h
    rw [hasColonNl] at h
    have h2 : hasColonNl (c2 :: rest) = false := by
      rcases Bool.or_eq_false_iff.mp h with ⟨-, h2⟩
      exact h2
    rw [replColonNl, if_neg hcond, ih h2]

theorem pairsOk_tail {a : Char} {l : List Char} (h : pairsOk (a :: l) = true) :
    pairsOk l = true := by
  cases l with
  | nil => rfl
  | cons b r =>
    rw [pairsOk, Bool.and_eq_true] at h
    exact h.2

theorem pairsOk_dropWhile {p : Char → Bool} :
    ∀ {l : List Char}, pairsOk l = true → pairsOk (l.dropWhile p) = true := by
  intro l
  induction l with
  | nil => intro h; exact h
  | cons x xs ih =>
    intro h
    rw [List.dropWhile_cons]
    by_cases hx : p x = true
    · rw [if_pos hx]
      exact ih (pairsOk_tail h)
    · rw [if_neg hx]
      exact h

theorem pairsOk_append_left : ∀ (l₁ l₂ : List Char),
    pairsOk (l₁ ++ l₂) = true → pairsOk l₁ = true := by
  intro l₁
  induction l₁ with
  | nil => intro l₂ h; rfl
  | cons a l' ih =>
    intro l₂ h
    cases l' with
    | nil => rfl
    | cons b r =>
      rw [List.cons_append, List.cons_append] at h
      rw [pairsOk, Bool.and_eq_true] at h ⊢
      refine ⟨h.1, ?_⟩
      exact ih l₂ (by rw [List.cons_append]; exact h.2)

theorem nlOk_stripPy {X : List Char} (h : pairsOk X = true) :
    nlOk (stripPy X) = true := by
  by_cases hS : stripPy X = []
  · rw [hS]; rfl
  · have hl : lstrip X ≠ [] := by
      intro hnil
      apply hS
      rw [stripPy, hnil, rstrip]
      rfl
    obtain ⟨c, rest, hcr⟩ := List.exists_cons_of_ne_nil hl
    have hc : isSpacePy c = false := dropWhile_head_false hcr
    obtain ⟨d, t, hdt⟩ := List.exists_cons_of_ne_nil hS
    obtain ⟨u, hu⟩ := rstrip_isPre (lstrip X)
    rw [show rstrip (lstrip X) = stripPy X from rfl] at hu
    have hpairs : pairsOk (stripPy X) = true := by
      apply pairsOk_append_left (stripPy X) u
      rw [hu]
      exact pairsOk_dropWhile h
    have hdc : d = c := by
      rw [hdt, hcr, List.cons_append] at hu
      exact ((List.cons.injEq _ _ _ _).mp hu).1
    rw [nlOk, hdt, Bool.and_eq_true]
    constructor
    · have hdn : d ≠ '\n' := by
        rw [hdc]
        intro hx
        rw [hx] at hc
        cases hc
      simp [hdn]
    · rw [← hdt]
      exact hpairs

/-- Claim C10: in `_clean_text`, the final replacement of `':\n'` with
`': '` is unreachable and therefore a no-op: for every input string,
`_clean_text(text)` equals the whitespace-collapsed text with a newline
inserted after each `'. '` sequence, then stripped, and every newline in
the output is immediately preceded by a period. -/
theorem claim_C10 :
    ∀ text : List Char,
      clean_text text = stripPy (replDotSp (joinSp (pyWords text))) ∧
      nlOk (clean_text text) = true := by
  intro text
  have hnJ : '\n' ∉ joinSp (pyWords text) := noNl_joinSp_pyWords text
  have heq : clean_text text = stripPy (replDotSp (joinSp (pyWords text))) := by
    rw [clean_text, replColonNl_eq_self (replDotSp_noColonNl hnJ)]
  refine ⟨heq, ?_⟩
  rw [heq]
  exact nlOk_stripPy (replDotSp_pairsOk hnJ)

theorem exists_word_of_mem {p : Char → Bool} :
    ∀ {l : List Char} {c : Char}, c ∈ l → p c = false → ∃ w ∈ l.splitOnP p, c ∈ w := by
  intro l
  induction l with
  | nil => intro c hc; cases hc
  | cons x xs ih =>
    intro c hc hp
    rw [List.splitOnP_cons]
    by_cases hx : p x = true
    · rw [if_pos hx]
      rcases List.mem_cons.mp hc with h | h
      · rw [h] at hp; rw [hp] at hx; cases hx
      · obtain ⟨w, hw, hcw⟩ := ih h hp
        exact ⟨w, List.mem_cons_of_mem [] hw, hcw⟩
    · rw [if_neg hx]
      obtain ⟨h0, t0, ht⟩ := List.exists_cons_of_ne_nil (List.splitOnP_ne_nil p xs)
      rw [ht, List.modifyHead_cons]
      rcases List.mem_cons.mp hc with h | h
      · exact ⟨x :: h0, List.mem_cons_self _ _, by rw [h]; exact List.mem_cons_self x h0⟩
      · obtain ⟨w, hw, hcw⟩ := ih h hp
        rw [ht] at hw
        rcases List.mem_cons.mp hw with h' | h'
        · refine ⟨x :: h0, List.mem_cons_self _ _, ?_⟩
          rw [← h']
          exact List.mem_cons_of_mem x hcw
        · exact ⟨w, List.mem_cons_of_mem _ h', hcw⟩

theorem mem_joinSp_of {c : Char} :
    ∀ {ws : List (List Char)} {w : List Char}, w ∈ ws → c ∈ w → c ∈ joinSp ws := by
  intro ws
  induction ws with
  | nil => intro w hw; cases hw
  | cons w' ws ih =>
    intro w hw hc
    cases ws with
    | nil =>
      rw [joinSp_single]
      rcases List.mem_cons.mp hw with h | h
      · rw [← h]; exact hc
      · cases h
    | cons v ws' =>
      rw [joinSp_cons_cons]
      rcases List.mem_cons.mp hw with h | h
      · apply List.mem_append.mpr
        left
        rw [← h]
        exact hc
      · apply List.mem_append.mpr
        right
        exact List.mem_cons_of_mem ' ' (ih h hc)

theorem mem_replDotSp_nonspace {c : Char} :
    ∀ {l : List Char}, c ∈ l → isSpacePy c = false → c ∈ replDotSp l := by
  intro l
  induction l using replDotSp.induct with
  | case1 => intro hc; cases hc
  | case2 d => intro hc hs; rw [replDotSp]; exact hc
  | case3 c1 c2 rest hcond ih =>
    intro hc hs
    rw [Bool.and_eq_true, decide_eq_true_eq, decide_eq_true_eq] at hcond
    rw [replDotSp, if_pos (by rw [hcond.1, hcond.2]; rfl)]
    rcases List.mem_cons.mp hc with h | h
    · rw [h, hcond.1]
      exact List.mem_cons_self '.' _
    · rcases List.mem_cons.mp h with h' | h'
      · rw [h', hcond.2] at hs
        cases hs
      · exact List.mem_cons_of_mem '.' (List.mem_cons_of_mem '\n' (ih h' hs))
  | case4 c1 c2 rest hcond ih =>
    intro hc hs
    rw [replDotSp, if_neg hcond]
    rcases List.mem_cons.mp hc with h | h
    · rw [h]; exact List.mem_cons_self c1 _
    · exact List.mem_cons_of_mem c1 (ih h hs)

theorem mem_replColonNl_nonspace {c : Char} :
    ∀ {l : List Char}, c ∈ l → isSpacePy c = false → c ∈ replColonNl l := by
  intro l
  induction l using replColonNl.induct with
  | case1 => intro hc; cases hc
  | case2 d => intro hc hs; rw [replColonNl]; exact hc
  | case3 c1 c2 rest hcond ih =>
    intro hc hs
    rw [Bool.and_eq_true, decide_eq_true_eq, decide_eq_true_eq] at hcond
    rw [replColonNl, if_pos (by rw [hcond.1, hcond.2]; rfl)]
    rcases List.mem_cons.mp hc with h | h
    · rw [h, hcond.1]
      exact List.mem_cons_self ':' _
    · rcases List.mem_cons.mp h with h' | h'
      · rw [h', hcond.2] at hs
        cases hs
      · exact List.mem_cons_of_mem ':' (List.mem_cons_of_mem ' ' (ih h' hs))
  | case4 c1 c2 rest hcond ih =>
    intro hc hs
    rw [replColonNl, if_neg hcond]
    rcases List.mem_cons.mp hc with h | h
    · rw [h]; exact List.mem_cons_self c1 _
    · exact List.mem_cons_of_mem c1 (ih h hs)

theorem clean_text_ne_nil {t : List Char} (h : ∃ c ∈ t, isSpacePy c = false) :
    clean_text t ≠ [] := by
  obtain ⟨c, hc, hs⟩ := h
  obtain ⟨w, hw, hcw⟩ := exists_word_of_mem hc hs
  have hwp : w ∈ pyWords t := by
    rw [pyWords, List.mem_filter]
    refine ⟨hw, ?_⟩
    have : w ≠ [] := by
      intro hnil
      rw [hnil] at hcw
      cases hcw
    simpa using this
  have h1 : c ∈ joinSp (pyWords t) := mem_joinSp_of hwp hcw
  have h2 : c ∈ replDotSp (joinSp (pyWords t)) := mem_replDotSp_nonspace h1 hs
  have h3 : c ∈ replColonNl (replDotSp (joinSp (pyWords t))) := mem_replColonNl_nonspace h2 hs
  rw [clean_text]
  exact stripPy_ne_nil ⟨c, h3, hs⟩

theorem parse_plain_title (r : List Char) :
    (parse_plain_response r).1 = fallbackTitle ∨
    ∃ m, (parse_plain_response r).1 = stripPy m ∧ stripPy m ≠ [] := by
  simp only [parse_plain_response]
  split
  · left; rfl
  · rename_i t rest heq
    right
    have ht : t ∈ (((stripPy (removeMarkers (removeReasoningSpans r.length r).length
        (removeReasoningSpans r.length r))).splitOn '\n').map stripPy).filter (· ≠ []) := by
      rw [heq]
      exact List.mem_cons_self t rest
    rw [List.mem_filter] at ht
    obtain ⟨hmem, hne⟩ := ht
    obtain ⟨m, -, hm⟩ := List.mem_map.mp hmem
    refine ⟨m, by rw [← hm], by rw [hm]; simpa using hne⟩

theorem parse_title_cases (r : List Char) :
    (parse_structured_response r).title = clean_text (parse_plain_response r).1 ∨
    ∃ v, (parse_structured_response r).title = clean_text (stripPy v) ∧ stripPy v ≠ [] := by
  have key : (parse_structured_response r).title = clean_text
      (if ((extractTagged (str "<commit_title>") (str "</commit_title>") r).map stripPy).getD [] = []
       then parse_plain_response r
       else (((extractTagged (str "<commit_title>") (str "</commit_title>") r).map stripPy).getD [],
         ((extractTagged (str "<commit_body>") (str "</commit_body>") r).map stripPy).getD [])).1 := by
    unfold parse_structured_response
    rfl
  by_cases h0 :
      ((extractTagged (str "<commit_title>") (str "</commit_title>") r).map stripPy).getD [] = []
  · rw [key, if_pos h0]
    exact Or.inl rfl
  · right
    cases hext : extractTagged (str "<commit_title>") (str "</commit_title>") r with
    | none => exact absurd (by rw [hext]; rfl) h0
    | some v =>
      refine ⟨v, ?_, ?_⟩
      · rw [key, if_neg h0]
        show clean_text
          (((extractTagged (str "<commit_title>") (str "</commit_title>") r).map stripPy).getD []) =
          clean_text (stripPy v)
        rw [hext]
        rfl
      · intro hh
        apply h0
        rw [hext]
        exact hh

/-- Claim C1: for every input string, `parse_structured_response` returns a
result (it is total, so no exception is possible) whose title is a
non-empty string; for an empty raw AI response, and for one containing no
tags and no non-empty lines, it returns the configured default fallback
title `'chore: update files'` and an empty body. -/
theorem claim_C1 :
    (∀ response : List Char, (parse_structured_response response).title ≠ []) ∧
    parse_structured_response [] =
      ⟨[], str "chore: update files", [], str "chore: update files"⟩ ∧
    parse_structured_response (str " \n\t \n ") =
      ⟨[], str "chore: update files", [], str "chore: update files"⟩ := by
  refine ⟨?_, by decide, by decide⟩
  intro r
  rcases parse_title_cases r with h | ⟨v, h, hv⟩
  · rw [h]
    rcases parse_plain_title r with h1 | ⟨m, h1, hm⟩
    · rw [h1]
      exact clean_text_ne_nil ⟨'c', by decide, by decide⟩
    · rw [h1]
      obtain ⟨c, hc, hs⟩ := exists_nonspace_of_strip_ne_nil hm
      exact clean_text_ne_nil ⟨c, hc, hs⟩
  · rw [h]
    obtain ⟨c, hc, hs⟩ := exists_nonspace_of_strip_ne_nil hv
    exact clean_text_ne_nil ⟨c, hc, hs⟩

theorem shiftAmount_pow_le : ∀ (fuel x : Nat),
    shiftAmount fuel x = 0 ∨ 2 ^ 52 * 2 ^ shiftAmount fuel x ≤ x := by
  intro fuel
  induction fuel with
  | zero => intro x; left; rfl
  | succ f ih =>
    intro x
    rw [shiftAmount]
    by_cases hx : x < 2 ^ 53
    · rw [if_pos hx]; left; rfl
    · rw [if_neg hx]
      right
      rcases ih (x / 2) with h | h
      · rw [h]
        have h53 : 2 ^ 53 ≤ x := Nat.le_of_not_lt hx
        have : (2 : Nat) ^ 52 * 2 ^ (0 + 1) = 2 ^ 53 := by norm_num
        omega
      · have h2 : 2 ^ 52 * 2 ^ shiftAmount f (x / 2) * 2 ≤ x := by
          have := (Nat.le_div_iff_mul_le (by norm_num : (0 : Nat) < 2)).mp h
          exact this
        calc 2 ^ 52 * 2 ^ (shiftAmount f (x / 2) + 1)
            = 2 ^ 52 * 2 ^ shiftAmount f (x / 2) * 2 := by ring
          _ ≤ x := h2

theorem roundSig_lower (s P : Nat) : P - P % 2 ^ s ≤ roundSig s P := by
  simp only [roundSig]
  by_cases hs : s = 0
  · rw [if_pos hs, hs]
    have : P % 2 ^ 0 = 0 := Nat.mod_one P
    omega
  · rw [if_neg hs]
    have hdm : 2 ^ s * (P / 2 ^ s) + P % 2 ^ s = P := Nat.div_add_mod P (2 ^ s)
    have hbase : P - P % 2 ^ s ≤ P / 2 ^ s * 2 ^ s := by
      have : P / 2 ^ s * 2 ^ s = 2 ^ s * (P / 2 ^ s) := Nat.mul_comm _ _
      omega
    split
    · calc P - P % 2 ^ s ≤ P / 2 ^ s * 2 ^ s := hbase
        _ ≤ (P / 2 ^ s + 1) * 2 ^ s := Nat.mul_le_mul_right _ (Nat.le_succ _)
    · exact hbase

theorem roundSig_zero (P : Nat) : roundSig 0 P = P := by
  simp [roundSig]

theorem fl07_lower (m : Nat) :
    3152519739159347 * m - 3152519739159347 * m / 2 ^ 52 ≤ fl07scaled m := by
  simp only [fl07scaled]
  rcases shiftAmount_pow_le 128 (3152519739159347 * m) with h | h
  · rw [h, roundSig_zero]
    omega
  · have hlow := roundSig_lower (shiftAmount 128 (3152519739159347 * m)) (3152519739159347 * m)
    have hs_le : 2 ^ shiftAmount 128 (3152519739159347 * m) ≤ 3152519739159347 * m / 2 ^ 52 := by
      rw [Nat.le_div_iff_mul_le (by norm_num : (0 : Nat) < 2 ^ 52)]
      calc 2 ^ shiftAmount 128 (3152519739159347 * m) * 2 ^ 52
          = 2 ^ 52 * 2 ^ shiftAmount 128 (3152519739159347 * m) := Nat.mul_comm _ _
        _ ≤ 3152519739159347 * m := h
    have hmod : (3152519739159347 * m) % 2 ^ shiftAmount 128 (3152519739159347 * m) <
        2 ^ shiftAmount 128 (3152519739159347 * m) :=
      Nat.mod_lt _ (Nat.pos_pow_of_pos _ (by norm_num))
    omega

theorem backoff_ge_70 {m n : Nat} (hm : m ≤ 2 ^ 48)
    (hb : backoffTest (n : Int) m = true) : 7 * m ≤ 10 * n := by
  rw [backoffTest, decide_eq_true_eq] at hb
  have hb' : fl07scaled m < n * 2 ^ 52 := by exact_mod_cast hb
  have hlow := fl07_lower m
  have hk_le : 3152519739159347 * m / 2 ^ 52 ≤ 3152519739159347 * m := Nat.div_le_self _ _
  have hdiv : 3152519739159347 * m / 2 ^ 52 * 2 ^ 52 ≤ 3152519739159347 * m :=
    Nat.div_mul_le_self _ _
  have hk10 : 10 * (3152519739159347 * m / 2 ^ 52) ≤ 7 * m := by
    have h1 : 10 * (3152519739159347 * m / 2 ^ 52) * 2 ^ 52 ≤ 7 * m * 2 ^ 52 := by
      calc 10 * (3152519739159347 * m / 2 ^ 52) * 2 ^ 52
          = 10 * (3152519739159347 * m / 2 ^ 52 * 2 ^ 52) := by ring
        _ ≤ 10 * (3152519739159347 * m) := Nat.mul_le_mul_left 10 hdiv
        _ = 31525197391593470 * m := by ring
        _ ≤ 31525197391593472 * m := Nat.mul_le_mul_right m (by norm_num)
        _ = 7 * m * 2 ^ 52 := by ring
    exact Nat.le_of_mul_le_mul_right h1 (by norm_num)
  omega

theorem no_backoff_lt_70 {m n : Nat} (hm : m ≤ 2 ^ 48) (hn : 10 * n < 7 * m) :
    backoffTest (n : Int) m = false := by
  rw [backoffTest, decide_eq_false_iff_not]
  intro hgt
  have hgt' : fl07scaled m < n * 2 ^ 52 := by exact_mod_cast hgt
  have hlow := fl07_lower m
  have hk_le : 3152519739159347 * m / 2 ^ 52 ≤ 3152519739159347 * m := Nat.div_le_self _ _
  have hdiv : 3152519739159347 * m / 2 ^ 52 * 2 ^ 52 ≤ 3152519739159347 * m :=
    Nat.div_mul_le_self _ _
  have hk10 : 10 * (3152519739159347 * m / 2 ^ 52) ≤ 7 * m := by
    have h1 : 10 * (3152519739159347 * m / 2 ^ 52) * 2 ^ 52 ≤ 7 * m * 2 ^ 52 := by
      calc 10 * (3152519739159347 * m / 2 ^ 52) * 2 ^ 52
          = 10 * (3152519739159347 * m / 2 ^ 52 * 2 ^ 52) := by ring
        _ ≤ 10 * (3152519739159347 * m) := Nat.mul_le_mul_left 10 hdiv
        _ = 31525197391593470 * m := by ring
        _ ≤ 31525197391593472 * m := Nat.mul_le_mul_right m (by norm_num)
        _ = 7 * m * 2 ^ 52 := by ring
    exact Nat.le_of_mul_le_mul_right h1 (by norm_num)
  omega

theorem findIdxSp_none : ∀ {l : List Char}, (∀ c ∈ l, c ≠ ' ') → findIdxSp l = none := by
  intro l
  induction l with
  | nil => intro h; rfl
  | cons x xs ih =>
    intro h
    rw [findIdxSp, if_neg (h x (List.mem_cons_self x xs)),
      ih (fun c hc => h c (List.mem_cons_of_mem x hc))]
    rfl

theorem findIdxSp_replicate_x : ∀ (j : Nat) (rest : List Char),
    findIdxSp (List.replicate j 'x' ++ ' ' :: rest) = some j := by
  intro j
  induction j with
  | zero =>
    intro rest
    rw [List.replicate_zero, List.nil_append, findIdxSp, if_pos rfl]
  | succ n ih =>
    intro rest
    rw [List.replicate_succ, List.cons_append, findIdxSp,
      if_neg (by intro h; cases h), ih rest]
    rfl

theorem backoffTest_neg_one (m : Nat) : backoffTest (-1) m = false := by
  rw [backoffTest, decide_eq_false_iff_not]
  intro h
  have h0 : (0 : Int) ≤ (fl07scaled m : Int) := Int.ofNat_nonneg _
  omega

theorem rfind_space_no_space {l : List Char} (h : ∀ c ∈ l, c ≠ ' ') :
    rfind_space l = -1 := by
  rw [rfind_space, findIdxSp_none (fun c hc => h c (List.mem_reverse.mp hc))]

/-- Claim C7 (amended): `validate_title_length(title, max_length)` returns
`(true, title unchanged)` whenever the title fits; otherwise it truncates
to `max_length` characters and returns `(false, trimmed-and-stripped
result)` of length at most `max_length`; for `max_length ≤ 2^48` it backs
off to the last space boundary only if that boundary retains at least 70%
of `max_length` characters and keeps the hard cut when the boundary
retains less than 70% (for astronomically larger `max_length` the
floating-point threshold `max_length * 0.7` can round below an exact 70%
boundary, see the counterexample); a single word longer than `max_length`
with no space is hard-truncated, and
`validate_title_length("x"*80, 72) = (false, "x"*72)`. -/
theorem claim_C7_amended :
    (∀ (title : List Char) (m : Nat), title.length ≤ m →
      validate_title_length title m = (true, title)) ∧
    (∀ (title : List Char) (m : Nat), m < title.length →
      (validate_title_length title m).1 = false ∧
      (validate_title_length title m).2.length ≤ m) ∧
    (∀ (title : List Char) (m ls : Nat), m ≤ 2 ^ 48 → m < title.length →
      rfind_space (title.take m) = (ls : Int) →
      (backoffTest ((ls : Nat) : Int) m = true →
        7 * m ≤ 10 * ls ∧
        (validate_title_length title m).2 = stripPy ((title.take m).take ls)) ∧
      (10 * ls < 7 * m →
        (validate_title_length title m).2 = stripPy (title.take m))) ∧
    (∀ (title : List Char) (m : Nat), m < title.length →
      (∀ c ∈ title.take m, c ≠ ' ') →
      (validate_title_length title m).2 = stripPy (title.take m)) ∧
    validate_title_length (List.replicate 80 'x') 72 = (false, List.replicate 72 'x') := by
  refine ⟨?_, ?_, ?_, ?_, by decide⟩
  · intro title m h
    rw [validate_title_length, if_pos h]
  · intro title m h
    refine ⟨?_, ?_⟩
    · rw [validate_title_length, if_neg (by omega : ¬ title.length ≤ m)]
    simp only [validate_title_length, if_neg (by omega : ¬ title.length ≤ m)]
    show (stripPy (if backoffTest (rfind_space (title.take m)) m = true
      then (title.take m).take (rfind_space (title.take m)).toNat
      else title.take m)).length ≤ m
    refine le_trans (stripPy_length_le _) ?_
    split
    · rw [List.length_take, List.length_take]
      omega
    · rw [List.length_take]
      omega
  · intro title m ls hm hlen hfind
    constructor
    · intro hb
      refine ⟨backoff_ge_70 hm hb, ?_⟩
      simp only [validate_title_length, if_neg (by omega : ¬ title.length ≤ m)]
      show stripPy (if backoffTest (rfind_space (title.take m)) m = true
        then (title.take m).take (rfind_space (title.take m)).toNat
        else title.take m) = stripPy ((title.take m).take ls)
      rw [hfind, hb, if_pos rfl, Int.toNat_ofNat]
    · intro h70
      have hb : backoffTest ((ls : Nat) : Int) m = false := no_backoff_lt_70 hm h70
      simp only [validate_title_length, if_neg (by omega : ¬ title.length ≤ m)]
      show stripPy (if backoffTest (rfind_space (title.take m)) m = true
        then (title.take m).take (rfind_space (title.take m)).toNat
        else title.take m) = stripPy (title.take m)
      rw [hfind, hb]
      rfl
  · intro title m hlen hns
    have hfind : rfind_space (title.take m) = -1 := rfind_space_no_space hns
    simp only [validate_title_length, if_neg (by omega : ¬ title.length ≤ m)]
    show stripPy (if backoffTest (rfind_space (title.take m)) m = true
      then (title.take m).take (rfind_space (title.take m)).toNat
      else title.take m) = stripPy (title.take m)
    rw [hfind, backoffTest_neg_one]
    rfl

/-- Witness for C7: a title within the limit is returned unchanged. -/
theorem claim_C7_witness :
    validate_title_length (str "hi") 5 = (true, str "hi") :=
  claim_C7_amended.1 (str "hi") 5 (by decide)

theorem lstrip_cons_nonspace {c : Char} {l : List Char} (h : isSpacePy c = false) :
    lstrip (c :: l) = c :: l := by
  rw [lstrip, List.dropWhile_cons, if_neg (by rw [h]; exact Bool.false_ne_true)]

theorem stripPy_sandwich {a b : Char} {mid : List Char}
    (ha : isSpacePy a = false) (hb : isSpacePy b = false) :
    stripPy (a :: (mid ++ [b])) = a :: (mid ++ [b]) := by
  rw [stripPy, lstrip_cons_nonspace ha, rstrip]
  rw [show (a :: (mid ++ [b])).reverse = b :: (mid.reverse ++ [a]) from by simp]
  rw [List.dropWhile_cons, if_neg (by rw [hb]; exact Bool.false_ne_true)]
  simp

theorem rep_sandwich_shape (n k : Nat) (a b : Char) :
    List.replicate (n + 1) a ++ b :: List.replicate (k + 1) a =
      a :: ((List.replicate n a ++ b :: List.replicate k a) ++ [a]) := by
  rw [List.replicate_succ, List.replicate_succ' k, List.cons_append, List.append_assoc,
    List.cons_append]

/-- Counterexample for C7 as stated: with `max_length = 2^60` the code backs
off to the last space boundary `cexN` and returns the backed-off prefix,
although `10 * cexN < 7 * 2^60`, i.e. the boundary retains slightly less
than 70% of `max_length` characters; the hard cut would have returned the
whole truncation, which differs from the result. -/
theorem claim_C7_cex :
    validate_title_length cexTitle cexM = (false, List.replicate cexN 'x') ∧
    10 * cexN < 7 * cexM ∧
    stripPy (cexTitle.take cexM) ≠ List.replicate cexN 'x' := by
  have hM : cexM = 1152921504606846976 := by norm_num [cexM]
  have hN : cexN = 807045053224792833 := by norm_num [cexN]
  have hsub : cexM - cexN = 345876451382054143 := by omega
  have hlen : cexTitle.length = cexM + 1 := by
    rw [cexTitle, List.length_append, List.length_replicate, List.length_cons,
      List.length_replicate]
    omega
  have htake : cexTitle.take cexM =
      List.replicate cexN 'x' ++ ' ' :: List.replicate 345876451382054142 'x' := by
    rw [cexTitle, List.take_append_eq_append_take, List.take_replicate, List.length_replicate,
      Nat.min_eq_right (by omega : cexN ≤ cexM), hsub,
      show (345876451382054143 : Nat) = 345876451382054142 + 1 from by norm_num,
      List.take_succ_cons, List.take_replicate,
      Nat.min_eq_left (by norm_num : (345876451382054142 : Nat) ≤ 345876451382054142 + 1)]
  have hrev : (List.replicate cexN 'x' ++ ' ' :: List.replicate 345876451382054142 'x').reverse =
      List.replicate 345876451382054142 'x' ++ ' ' :: List.replicate cexN 'x' := by
    rw [List.reverse_append, List.reverse_cons, List.reverse_replicate, List.reverse_replicate,
      List.append_assoc]
    rfl
  have hrfind : rfind_space (cexTitle.take cexM) = (cexN : Int) := by
    rw [rfind_space, htake, hrev, findIdxSp_replicate_x]
    show ((List.replicate cexN 'x' ++ ' ' :: List.replicate 345876451382054142 'x').length : Int)
      - 1 - (345876451382054142 : Nat) = (cexN : Int)
    rw [List.length_append, List.length_replicate, List.length_cons, List.length_replicate, hN]
    omega
  have hbranch : backoffTest ((cexN : Nat) : Int) cexM = true := by decide
  have htaketake : (cexTitle.take cexM).take cexN = List.replicate cexN 'x' := by
    rw [htake, List.take_append_eq_append_take, List.take_replicate, List.length_replicate,
      Nat.sub_self, List.take_zero, List.append_nil, Nat.min_self]
  have hstrip1 : stripPy (List.replicate cexN 'x') = List.replicate cexN 'x' :=
    stripPy_eq_self (fun c hc => by rw [List.eq_of_mem_replicate hc]; rfl)
  refine ⟨?_, by omega, ?_⟩
  · simp only [validate_title_length, if_neg (by omega : ¬ cexTitle.length ≤ cexM)]
    show (false, stripPy (if backoffTest (rfind_space (cexTitle.take cexM)) cexM = true
      then (cexTitle.take cexM).take (rfind_space (cexTitle.take cexM)).toNat
      else cexTitle.take cexM)) = (false, List.replicate cexN 'x')
    rw [hrfind, hbranch, if_pos rfl, Int.toNat_ofNat, htaketake, hstrip1]
  · rw [htake]
    have hshape : List.replicate cexN 'x' ++ ' ' :: List.replicate 345876451382054142 'x' =
        'x' :: ((List.replicate 807045053224792832 'x' ++
          ' ' :: List.replicate 345876451382054141 'x') ++ ['x']) := by
      rw [hN, show (807045053224792833 : Nat) = 807045053224792832 + 1 from by norm_num,
        show (345876451382054142 : Nat) = 345876451382054141 + 1 from by norm_num]
      exact rep_sandwich_shape 807045053224792832 345876451382054141 'x' ' '
    rw [hshape, stripPy_sandwich (by decide) (by decide)]
    intro heq
    have hlen2 := congrArg List.length heq
    rw [List.length_cons, List.length_append, List.length_append, List.length_replicate,
      List.length_cons, List.length_replicate, List.length_replicate, List.length_cons,
      List.length_nil, hN] at hlen2
    omega
